import Mathlib

/-!
Verification of the instance-construction pipeline of `EnvelopeProblemSOS`
(`src/include/sos/EnvelopeProblemSOS.cpp`), shallowly embedded in Lean.

The embedding follows the source file closely:
* degree parameters `_L = d + 1` and `_U = 2 d + 1` (constructor, lines 22-23);
* the Clenshaw-Curtis quadrature weights (`get_clenshaw_curtis_integrals`,
  lines 104-137), modelled over `ℝ` in exact arithmetic;
* the Lagrange basis construction (`calculate_basis_polynomials`,
  lines 67-102), modelled over an arbitrary field, with the interpolation
  nodes as a parameter (they are supplied by the external `ChebTools`
  library, which is not part of this repository);
* the bound registry (`add_polynomial`, lines 139-166) and the instance
  assembly (`construct_SOS_instance`, lines 172-250) over `ℚ`, with the
  `exit(1)` failure paths modelled as `Except`;
* the solution projector (`print_solution`, lines 253-272), whose
  non-interpolant branch assigns the transformed solution to a shadowed
  block-local variable and discards it; the embedding returns `none` for
  the (uninitialised) outer variable in that branch.
-/

namespace EnvelopeSOS

/-- Quadrature node count `_L = _d + 1` (constructor, line 22). -/
def ccL (d : ℕ) : ℕ := d + 1

/-- Working dimension `_U = 2 * _d + 1` (constructor, line 23). -/
def ccU (d : ℕ) : ℕ := 2 * d + 1

/-- Entry `(k, n)` of the cosine matrix `D` of `get_clenshaw_curtis_integrals`
(lines 109-117): `scale_fac * cos(k*n*π/(L-1))`, divided by `L-1`
(note `_L - 1 = d`). -/
noncomputable def ccD (d k n : ℕ) : ℝ :=
  (if n = 0 ∨ n = d then (1 : ℝ) / 2 else 1) * Real.cos (k * n * Real.pi / d) / d

/-- Entry `m` of the vector `FourierCoeff` (lines 119-125).  The source first
writes index `0`, then index `L-1`, then the loop over `0 < m < L-1`; the
`if`-chain below lists the writes in reverse order so that a later write
shadows an earlier one (relevant only for `d = 0`, where indices `0` and
`L-1` coincide). -/
noncomputable def ccF (d m : ℕ) : ℝ :=
  if 1 ≤ m ∧ m < d then 2 / (1 - 2 * m * 2 * m)
  else if m = d then 1 / (1 - ((ccU d - 1 : ℕ) : ℝ) * ((ccU d - 1 : ℕ) : ℝ))
  else if m = 0 then 1
  else 0

/-- Entry `n` of `D.transpose() * FourierCoeff` (line 128). -/
noncomputable def ccRaw (d n : ℕ) : ℝ :=
  ∑ k ∈ Finset.range (ccL d), ccD d k n * ccF d k

/-- Entry `n` of the final vector `ClenshawCurtisWeights` (lines 127-131):
the first `L` entries are `Dᵀ * FourierCoeff`, entries `L .. U-1` mirror
entries `0 .. L-2` (`segment(L, L-1) = segment(0, L-1).reverse()`), and the
middle entry `L-1 = d` is doubled afterwards. -/
noncomputable def ClenshawCurtisWeights (d n : ℕ) : ℝ :=
  (if n = d then 2 else 1) * (if n ≤ d then ccRaw d n else ccRaw d (2 * d - n))

/-- The `_objectives_vector` written at lines 133-136: the negated
Clenshaw-Curtis weights. -/
noncomputable def objectivesVectorR (d n : ℕ) : ℝ :=
  -ClenshawCurtisWeights d n

/-- The divisor `_L - 1` used for the cosine matrix `D` (lines 113, 117). -/
noncomputable def divCosine (d : ℕ) : ℝ := ((ccL d - 1 : ℕ) : ℝ)

/-- The divisor `1 - 2*m*2*m` of the Fourier-coefficient loop (line 124). -/
noncomputable def divFourierMid (m : ℕ) : ℝ := 1 - 2 * m * 2 * m

/-- The divisor `1 - (U-1)*(U-1)` of the last Fourier coefficient (line 121). -/
noncomputable def divFourierLast (d : ℕ) : ℝ :=
  1 - ((ccU d - 1 : ℕ) : ℝ) * ((ccU d - 1 : ℕ) : ℝ)

/-- Registry and configuration state of an `EnvelopeProblemSOS` object,
over exact rational arithmetic: `_d`, the two mode flags, the cached
`_objectives_vector`, the cached Lagrange basis `_basis_polynomials`, and
the bound registry `_polynomials_bounds`. -/
structure SOSState where
  d : ℕ
  input_in_interpolant_basis : Bool
  use_weighted_polynomials : Bool
  objectives_vector : ℕ → ℚ
  basis_polynomials : List (List ℚ)
  polynomials_bounds : List (List ℚ)

/-- Entry `(i, j)` of the transformation matrix (`get_transformation_matrix`,
lines 397-404): column `j` holds basis polynomial `j`, so `Q(i,j) =
_basis_polynomials[j][i]`. -/
def Qfun (s : SOSState) (i j : ℕ) : ℚ :=
  (s.basis_polynomials.getD j []).getD i 0

/-- The transformation matrix as a square matrix; its dimension is
`_basis_polynomials.size()` as in the source. -/
def get_transformation_matrix (s : SOSState) :
    Matrix (Fin s.basis_polynomials.length) (Fin s.basis_polynomials.length) ℚ :=
  Matrix.of fun i j => Qfun s i j

/-- Exact-arithmetic model of Eigen's `colPivHouseholderQr().solve`
(line 161): for a square invertible system the QR solve returns the unique
solution, here written with Cramer's rule (`A⁻¹ = det⁻¹ • adjugate`). -/
def qrSolve {n : ℕ} (Q : Matrix (Fin n) (Fin n) ℚ) (p : List ℚ) : List ℚ :=
  List.ofFn fun i : Fin n =>
    (Q.det)⁻¹ * Q.adjugate.mulVec (fun j : Fin n => p.getD j 0) i

/-- Squared Frobenius norm, the exact-arithmetic stand-in for the `.norm()`
diagnostic of line 155. -/
def sqFrobNorm {n : ℕ} (M : Matrix (Fin n) (Fin n) ℚ) : ℚ :=
  ∑ i, ∑ j, (M i j) ^ 2

/-- `add_polynomial` (lines 139-166).  In interpolant mode the input is
appended unchanged (lines 144-147).  Otherwise the explicit inverse `Q_inv`
is computed only to report the residual `‖Q*Q_inv - I‖` (lines 152-156) and
the appended value is the QR solve of `Q x = polynomial` (lines 161-165).
The second component is the reported diagnostic (`none` when the early
interpolant-mode return skips it).  No dimension check is performed on
`polynomial`. -/
def add_polynomial (s : SOSState) (polynomial : List ℚ) : SOSState × Option ℚ :=
  let Q := get_transformation_matrix s
  if s.input_in_interpolant_basis then
    ({ s with polynomials_bounds := s.polynomials_bounds ++ [polynomial] }, none)
  else
    let Q_inv := (Q.det)⁻¹ • Q.adjugate
    let inv_error := sqFrobNorm (Q * Q_inv - 1)
    let inv_sol := qrSolve Q polynomial
    ({ s with polynomials_bounds := s.polynomials_bounds ++ [inv_sol] }, some inv_error)

/-- The primal constraint triple `(A, b, c)` with its recorded shapes:
`A` is `rows × cols`, `b` has length `bLen`, `c` has length `cLen`
(the `Matrix::Zero` / `Vector::Zero` allocation sizes of lines 186-191). -/
structure Constraints where
  rows : ℕ
  cols : ℕ
  A : ℕ → ℕ → ℚ
  bLen : ℕ
  b : ℕ → ℚ
  cLen : ℕ
  c : ℕ → ℚ

/-- Eigen `v.block(r0, 0, len, 1) = blk` as a function update. -/
def setVecBlock (v : ℕ → ℚ) (r0 len : ℕ) (blk : ℕ → ℚ) : ℕ → ℚ :=
  fun i => if r0 ≤ i ∧ i < r0 + len then blk (i - r0) else v i

/-- Eigen `M.block(r0, c0, h, w) = blk` as a function update. -/
def setMatBlock (M : ℕ → ℕ → ℚ) (r0 c0 h w : ℕ) (blk : ℕ → ℕ → ℚ) :
    ℕ → ℕ → ℚ :=
  fun i j =>
    if r0 ≤ i ∧ i < r0 + h ∧ c0 ≤ j ∧ j < c0 + w then blk (i - r0) (j - c0)
    else M i j

/-- The `Vector::Ones(U).asDiagonal()` block of line 197. -/
def idBlock : ℕ → ℕ → ℚ := fun a b => if a = b then 1 else 0

/-- One iteration of the constraint loop (lines 193-205): `-I` into
column-block `0` and `+I` into column-block `poly_idx + 1` of row-block
`poly_idx`. -/
def rowBlockUpdate (U : ℕ) (M : ℕ → ℕ → ℚ) (q : ℕ) : ℕ → ℕ → ℚ :=
  setMatBlock (setMatBlock M (q * U) 0 U U fun a b => -idBlock a b)
    (q * U) ((q + 1) * U) U U idBlock

/-- The constraint matrix `A` after the loop of lines 193-205, starting from
`Matrix::Zero` (line 190). -/
def buildA (N U : ℕ) : ℕ → ℕ → ℚ :=
  (List.range (N - 1)).foldl (rowBlockUpdate U) fun _ _ => 0

/-- A vector assembled from `U`-sized blocks, block `q` holding `g q`,
starting from `Vector::Zero`. -/
def buildBlocksVec (U : ℕ) (g : ℕ → ℕ → ℚ) (m : ℕ) : ℕ → ℚ :=
  (List.range m).foldl (fun v q => setVecBlock v (q * U) U (g q)) fun _ => 0

/-- The right-hand side block of row-block `q` (lines 203-204):
`_polynomials_bounds[q+1] - _polynomials_bounds[0]`. -/
def boundsDiff (bounds : List (List ℚ)) (q a : ℕ) : ℚ :=
  (bounds.getD (q + 1) []).getD a 0 - (bounds.getD 0 []).getD a 0

/-- The primal triple built by `construct_SOS_instance` at lines 185-205. -/
def primal_constraints (s : SOSState) : Constraints :=
  let N := s.polynomials_bounds.length
  let U := ccU s.d
  { rows := (N - 1) * U
    cols := N * U
    A := buildA N U
    bLen := (N - 1) * U
    b := buildBlocksVec U (boundsDiff s.polynomials_bounds) (N - 1)
    cLen := N * U
    c := setVecBlock (fun _ => 0) 0 U fun a => -s.objectives_vector a }

/-- The heap-allocated barrier tree of lines 213-237, as a value tree:
an SOS-cone barrier carries its degree and optional weight polynomial, a
sum barrier its dimension argument, a product barrier its children. -/
inductive Barrier where
  | sosB (deg : ℕ) (weight : Option (List ℚ))
  | sumB (dim : ℕ) (children : List Barrier)
  | prodB (children : List Barrier)

/-- The per-polynomial sum barrier of lines 222-236: one
`InterpolantDualSOSBarrier(_d)` plus, when `_use_weighted_polynomials` is
set, a second one weighted by the coefficient vector `(1, 0, -1)`
(the polynomial `1 - x²`). -/
def sum_barrier_for (s : SOSState) : Barrier :=
  .sumB (ccU s.d)
    ([.sosB s.d none] ++
      if s.use_weighted_polynomials then [.sosB s.d (some [1, 0, -1])] else [])

/-- The product barrier assembled by the loop of lines 222-237: one sum
barrier per registered polynomial. -/
def build_product_barrier (s : SOSState) (N : ℕ) : Barrier :=
  .prodB ((List.range N).map fun _ => sum_barrier_for s)

/-- Modelled from the spec: `Constraints::dual_system` (called at line 239)
is implemented outside this repository's source file; spec §4.5 describes it
as the standard conic-duality transform that exchanges the roles of primal
variables and constraints, so the matrix is transposed and `b`/`c` swap
roles. -/
def dual_system (cs : Constraints) : Constraints :=
  { rows := cs.cols
    cols := cs.rows
    A := fun i j => cs.A j i
    bLen := cs.cLen
    b := cs.c
    cLen := cs.bLen
    c := cs.b }

/-- The `Instance` handed to the solver (lines 241-243): the dualized
constraints plus the product barrier. -/
structure Instance where
  constraints : Constraints
  barrier : Barrier

/-- The two `exit(1)` failure paths of lines 176-183, modelled as errors:
an empty registry (`"Please provide a polynomial."`) and a single-entry
registry (`"Instance trivial. Please detrivialize."`). -/
inductive InstanceError where
  | emptyInstance
  | trivialInstance
deriving DecidableEq

/-- `construct_SOS_instance` (lines 172-250).  With `0` registered
polynomials the code logs an error and exits; with exactly `1` it logs a
warning and exits; both paths are modelled as `Except.error`.  Otherwise it
returns the dualized primal constraints and the product barrier. -/
def construct_SOS_instance (s : SOSState) : Except InstanceError Instance :=
  let NUM_POLYNOMIALS := s.polynomials_bounds.length
  if NUM_POLYNOMIALS = 0 then .error .emptyInstance
  else if NUM_POLYNOMIALS = 1 then .error .trivialInstance
  else
    .ok
      { constraints := dual_system (primal_constraints s)
        barrier := build_product_barrier s NUM_POLYNOMIALS }

/-- The vector `sol_vec = _polynomials_bounds[0] - sol.s.segment(0, U)`
computed by `print_solution` at lines 259-264. -/
def solutionSlice (s : SOSState) (sol_s : List ℚ) : List ℚ :=
  (List.range (ccU s.d)).map fun i =>
    (s.polynomials_bounds.getD 0 []).getD i 0 - sol_s.getD i 0

/-- `print_solution` (lines 253-272), returning the contents of the outer
local `solution`.  In interpolant mode the branch at line 270 assigns
`sol_vec` to it.  In the non-interpolant branch (lines 266-268) the code
declares a NEW shadowed local `solution` for `Q * sol_vec` and discards it,
so the outer variable is never initialised: modelled as `none`. -/
def print_solution (s : SOSState) (sol_s : List ℚ) : Option (List ℚ) :=
  if ¬ s.input_in_interpolant_basis then none
  else some (solutionSlice s sol_s)

/-- The value `Q * sol_vec` that the non-interpolant branch of
`print_solution` (line 268) computes into the shadowed block-local variable
and then discards. -/
def print_solution_shadowed (s : SOSState) (sol_s : List ℚ) : List ℚ :=
  (List.range s.basis_polynomials.length).map fun i =>
    ∑ j ∈ Finset.range s.basis_polynomials.length,
      Qfun s i j * (solutionSlice s sol_s).getD j 0

/-- Evaluation of a coefficient vector of length `U` as a polynomial:
`c₀ + c₁ x + ... + c_{U-1} x^{U-1}` (the evaluation convention of
`plot_polynomials_and_solution`, lines 330-333). -/
def evalCoeffs {F : Type} [Field F] (U : ℕ) (c : ℕ → F) (x : F) : F :=
  ∑ k ∈ Finset.range U, c k * x ^ k

/-- One pass of the inner loop of `calculate_basis_polynomials`
(lines 87-95): multiply the accumulated coefficient vector by `(x - t_j)`,
i.e. shift by one coefficient and subtract `t_j` times the vector, truncated
to `U` coefficients (`shift.segment(0, U) + aux_vec`). -/
def basis_step {F : Type} [Field F] (U : ℕ) (tj : F) (p : ℕ → F) : ℕ → F :=
  fun k => if k < U then (if k = 0 then 0 else p (k - 1)) - tj * p k else 0

/-- The starting coefficient vector `poly_i(0) = 1` of line 85. -/
def basis_init {F : Type} [Field F] : ℕ → F :=
  fun k => if k = 0 then 1 else 0

/-- The accumulated numerator coefficients of basis element `i` after the
loop over all `j ≠ i` (lines 87-95). -/
def basis_numer {F : Type} [Field F] (U : ℕ) (t : ℕ → F) (i : ℕ) : ℕ → F :=
  ((List.range U).filter fun j => j ≠ i).foldl
    (fun p j => basis_step U (t j) p) basis_init

/-- The accumulated denominator `Π_{j ≠ i} (t_i - t_j)` of lines 86-89. -/
def basis_denom {F : Type} [Field F] (U : ℕ) (t : ℕ → F) (i : ℕ) : F :=
  (((List.range U).filter fun j => j ≠ i).map fun j => t i - t j).prod

/-- The `i`-th basis coefficient vector produced by
`calculate_basis_polynomials`: the loop result divided entrywise by the
denominator (`poly_i /= denom`, line 96). -/
def calculate_basis_polynomial {F : Type} [Field F] (U : ℕ) (t : ℕ → F)
    (i : ℕ) : ℕ → F :=
  fun k => basis_numer U t i k / basis_denom U t i

/-- A sample state with two registered polynomials (`d = 1`, `U = 3`). -/
def sampleState : SOSState :=
  { d := 1
    input_in_interpolant_basis := true
    use_weighted_polynomials := true
    objectives_vector := fun i => (i : ℚ) + 1
    basis_polynomials := []
    polynomials_bounds := [[1, 2, 3], [4, 5, 6]] }

/-- A sample state with an empty registry (`d = 1`, `U = 3`). -/
def emptyRegState : SOSState :=
  { d := 1
    input_in_interpolant_basis := true
    use_weighted_polynomials := false
    objectives_vector := fun _ => 0
    basis_polynomials := []
    polynomials_bounds := [] }

/-- A sample state with exactly one registered polynomial. -/
def oneRegState : SOSState :=
  { emptyRegState with polynomials_bounds := [[0, 0, 0]] }

/-- A sample non-interpolant-mode state whose cached basis is the standard
basis, so that the transformation matrix is the 3×3 identity. -/
def projState : SOSState :=
  { d := 1
    input_in_interpolant_basis := false
    use_weighted_polynomials := false
    objectives_vector := fun _ => 0
    basis_polynomials := [[1, 0, 0], [0, 1, 0], [0, 0, 1]]
    polynomials_bounds := [[1, 2, 3]] }

/-- The same state in interpolant mode. -/
def projStateI : SOSState :=
  { projState with input_in_interpolant_basis := true }

/-- Sample pairwise distinct interpolation nodes `0, 1, 2, ...` over `ℚ`. -/
def sampleNodes : ℕ → ℚ := fun n => (n : ℚ)

/-- C6: for every max degree `d ≥ 1`, the objective vector of length `U`
produced by the quadrature weight engine is symmetric:
`objective[i] = objective[U-1-i]` for every `i < U`. -/
theorem claim_C6 (d i : ℕ) (hd : 1 ≤ d) (hi : i < ccU d) :
    objectivesVectorR d i = objectivesVectorR d (ccU d - 1 - i) := by
  have hU : ccU d - 1 - i = 2 * d - i := by
    simp only [ccU]
    omega
  rw [hU]
  unfold objectivesVectorR ClenshawCurtisWeights
  have hi' : i ≤ 2 * d := by
    simp only [ccU] at hi
    omega
  rcases lt_trichotomy i d with hlt | heq | hgt
  · have h1 : ¬ (i = d) := by omega
    have h2 : i ≤ d := by omega
    have h3 : ¬ (2 * d - i = d) := by omega
    have h4 : ¬ (2 * d - i ≤ d) := by omega
    have h5 : 2 * d - (2 * d - i) = i := by omega
    simp [h1, h2, h3, h4, h5]
  · have h5 : 2 * d - i = i := by omega
    rw [h5, h5]
  · have h1 : ¬ (i = d) := by omega
    have h2 : ¬ (i ≤ d) := by omega
    have h3 : ¬ (2 * d - i = d) := by omega
    have h4 : 2 * d - i ≤ d := by omega
    simp [h1, h2, h3, h4]

/-- Witness for C6 at `d = 1`, `i = 0`. -/
theorem claim_C6_witness :
    objectivesVectorR 1 0 = objectivesVectorR 1 (ccU 1 - 1 - 0) :=
  claim_C6 1 0 (by decide) (by decide)

/-- Telescoping evaluation of a sum of cosines at multiples of `θ`,
via `sin x - sin y = 2 sin((x-y)/2) cos((x+y)/2)`. -/
lemma cos_telescope (θ : ℝ) (m : ℕ) :
    2 * Real.sin (θ / 2) * ∑ i ∈ Finset.range m, Real.cos (((i : ℝ) + 1) * θ)
      = Real.sin (((m : ℝ) + 1 / 2) * θ) - Real.sin (θ / 2) := by
  have key := Finset.sum_range_sub (fun i : ℕ => Real.sin (((i : ℝ) + 1 / 2) * θ)) m
  rw [Finset.mul_sum]
  have h : ∀ i ∈ Finset.range m,
      2 * Real.sin (θ / 2) * Real.cos (((i : ℝ) + 1) * θ)
        = Real.sin ((((i + 1 : ℕ) : ℝ) + 1 / 2) * θ)
          - Real.sin (((i : ℝ) + 1 / 2) * θ) := by
    intro i _
    have e1 : (((((i + 1 : ℕ) : ℝ)) + 1 / 2) * θ - ((i : ℝ) + 1 / 2) * θ) / 2
        = θ / 2 := by
      push_cast
      ring
    have e2 : (((((i + 1 : ℕ) : ℝ)) + 1 / 2) * θ + ((i : ℝ) + 1 / 2) * θ) / 2
        = ((i : ℝ) + 1) * θ := by
      push_cast
      ring
    rw [Real.sin_sub_sin, e1, e2]
  rw [Finset.sum_congr rfl h, key]
  have e3 : (((0 : ℕ) : ℝ) + 1 / 2) * θ = θ / 2 := by
    push_cast
    ring
  rw [e3]

/-- The edge-halved sum of cosines `cos(k n π / d)` over `n = 0 .. d`
vanishes for every `1 ≤ k ≤ d` — the discrete-cosine identity behind the
Clenshaw-Curtis weight normalisation. -/
lemma scaled_cos_sum (d k : ℕ) (hd : 1 ≤ d) (hk1 : 1 ≤ k) (hk2 : k ≤ d) :
    1 / 2 + (∑ n ∈ Finset.Ico 1 d, Real.cos ((k : ℝ) * n * Real.pi / d))
      + 1 / 2 * Real.cos ((k : ℝ) * Real.pi) = 0 := by
  have hd0 : (d : ℝ) ≠ 0 := Nat.cast_ne_zero.mpr (by omega)
  have hdpos : (0 : ℝ) < d := by exact_mod_cast Nat.lt_of_lt_of_le Nat.zero_lt_one hd
  have hkpos : (0 : ℝ) < k := by exact_mod_cast Nat.lt_of_lt_of_le Nat.zero_lt_one hk1
  have hkd : (k : ℝ) ≤ d := by exact_mod_cast hk2
  set θ : ℝ := (k : ℝ) * Real.pi / d with hθ
  have hspos : 0 < Real.sin (θ / 2) := by
    apply Real.sin_pos_of_pos_of_lt_pi
    · have : 0 < θ := div_pos (mul_pos hkpos Real.pi_pos) hdpos
      linarith
    · have hθπ : θ ≤ Real.pi := by
        rw [hθ, div_le_iff₀ hdpos]
        nlinarith [Real.pi_pos]
      linarith [Real.pi_pos]
  have hmid : ∑ n ∈ Finset.Ico 1 d, Real.cos ((k : ℝ) * n * Real.pi / d)
      = ∑ i ∈ Finset.range (d - 1), Real.cos (((i : ℝ) + 1) * θ) := by
    rw [Finset.sum_Ico_eq_sum_range]
    apply Finset.sum_congr rfl
    intro i _
    congr 1
    rw [hθ]
    push_cast
    ring
  have htel := cos_telescope θ (d - 1)
  have hcast : (((d - 1 : ℕ) : ℝ) + 1 / 2) * θ = (k : ℝ) * Real.pi - θ / 2 := by
    rw [Nat.cast_sub hd, hθ]
    push_cast
    field_simp
    ring
  have hsin : Real.sin ((((d - 1 : ℕ) : ℝ) + 1 / 2) * θ)
      = -((-1) ^ k * Real.sin (θ / 2)) := by
    rw [hcast, Real.sin_nat_mul_pi_sub]
  have hcos : Real.cos ((k : ℝ) * Real.pi) = (-1) ^ k := by
    have := Real.cos_nat_mul_pi_sub 0 k
    simpa using this
  have main : 2 * Real.sin (θ / 2)
      * (1 / 2 + (∑ n ∈ Finset.Ico 1 d, Real.cos ((k : ℝ) * n * Real.pi / d))
          + 1 / 2 * Real.cos ((k : ℝ) * Real.pi)) = 0 := by
    rw [hmid, hcos]
    have expand : 2 * Real.sin (θ / 2)
        * (1 / 2 + (∑ i ∈ Finset.range (d - 1), Real.cos (((i : ℝ) + 1) * θ))
            + 1 / 2 * (-1 : ℝ) ^ k)
        = Real.sin (θ / 2)
          + 2 * Real.sin (θ / 2)
              * (∑ i ∈ Finset.range (d - 1), Real.cos (((i : ℝ) + 1) * θ))
          + Real.sin (θ / 2) * (-1) ^ k := by
      ring
    rw [expand, htel, hsin]
    ring
  have h2s : (2 : ℝ) * Real.sin (θ / 2) ≠ 0 := by positivity
  exact (mul_eq_zero.mp main).resolve_left h2s

/-- Sum of row `k = 0` of the cosine matrix: the halved endpoints make the
scales add up to `d`, so the row sums to `1`. -/
lemma sum_ccD_k0 (d : ℕ) (hd : 1 ≤ d) :
    ∑ n ∈ Finset.range (ccL d), ccD d 0 n = 1 := by
  obtain ⟨e, rfl⟩ : ∃ e, d = e + 1 := ⟨d - 1, by omega⟩
  have hD : ∀ n : ℕ, ccD (e + 1) 0 n
      = (if n = 0 ∨ n = e + 1 then (1 : ℝ) / 2 else 1) / (e + 1) := by
    intro n
    unfold ccD
    have harg : ((0 : ℕ) : ℝ) * n * Real.pi / ((e + 1 : ℕ) : ℝ) = 0 := by
      push_cast
      ring
    rw [harg, Real.cos_zero]
    push_cast
    ring
  have hL : ccL (e + 1) = (e + 1) + 1 := rfl
  rw [hL]
  rw [Finset.sum_range_succ, Finset.sum_range_succ']
  have hmid : ∀ i ∈ Finset.range e, ccD (e + 1) 0 (i + 1) = 1 / ((e : ℝ) + 1) := by
    intro i hi
    have hi' : i < e := Finset.mem_range.mp hi
    rw [hD]
    have : ¬ (i + 1 = 0 ∨ i + 1 = e + 1) := by omega
    rw [if_neg this]
  rw [Finset.sum_congr rfl hmid, Finset.sum_const, Finset.card_range]
  rw [hD 0, hD (e + 1)]
  have h1 : ((0 : ℕ) = 0 ∨ (0 : ℕ) = e + 1) := Or.inl rfl
  have h2 : (e + 1 = 0 ∨ e + 1 = e + 1) := Or.inr rfl
  rw [if_pos h1, if_pos h2]
  have he : ((e : ℝ) + 1) ≠ 0 := by positivity
  field_simp
  ring

/-- Sum of row `k` of the cosine matrix for `1 ≤ k ≤ d`: it vanishes by the
discrete-cosine identity. -/
lemma sum_ccD_kpos (d k : ℕ) (hd : 1 ≤ d) (hk1 : 1 ≤ k) (hk2 : k ≤ d) :
    ∑ n ∈ Finset.range (ccL d), ccD d k n = 0 := by
  have hd0 : (d : ℝ) ≠ 0 := Nat.cast_ne_zero.mpr (by omega)
  have hL : ccL d = d + 1 := rfl
  rw [hL, Finset.range_eq_Ico, Finset.sum_Ico_succ_top (Nat.zero_le d),
    Finset.sum_eq_sum_Ico_succ_bot (by omega : 0 < d)]
  have h0 : ccD d k 0 = 1 / 2 / d := by
    unfold ccD
    have harg : (k : ℝ) * ((0 : ℕ) : ℝ) * Real.pi / d = 0 := by
      push_cast
      ring
    rw [if_pos (Or.inl rfl), harg, Real.cos_zero]
    ring
  have hdd : ccD d k d = 1 / 2 * Real.cos ((k : ℝ) * Real.pi) / d := by
    unfold ccD
    have harg : (k : ℝ) * (d : ℝ) * Real.pi / d = (k : ℝ) * Real.pi := by
      field_simp
      ring
    rw [if_pos (Or.inr rfl), harg]
  have hmid : ∀ n ∈ Finset.Ico 1 d,
      ccD d k n = Real.cos ((k : ℝ) * n * Real.pi / d) / d := by
    intro n hn
    have hn' := Finset.mem_Ico.mp hn
    unfold ccD
    have : ¬ (n = 0 ∨ n = d) := by omega
    rw [if_neg this]
    ring
  rw [h0, hdd, Finset.sum_congr rfl hmid, ← Finset.sum_div]
  have hs := scaled_cos_sum d k hd hk1 hk2
  have h2 : (1 / 2 + (∑ n ∈ Finset.Ico 1 d, Real.cos ((k : ℝ) * n * Real.pi / d))
      + 1 / 2 * Real.cos ((k : ℝ) * Real.pi)) / d = 0 := by
    rw [hs]
    simp
  linear_combination h2

/-- The entries of `Dᵀ * FourierCoeff` sum to `1`: only the `k = 0` Fourier
coefficient survives. -/
lemma sum_ccRaw (d : ℕ) (hd : 1 ≤ d) :
    ∑ n ∈ Finset.range (ccL d), ccRaw d n = 1 := by
  unfold ccRaw
  rw [Finset.sum_comm]
  have hrows : ∀ k ∈ Finset.range (ccL d),
      ∑ n ∈ Finset.range (ccL d), ccD d k n * ccF d k
        = (∑ n ∈ Finset.range (ccL d), ccD d k n) * ccF d k := by
    intro k _
    rw [Finset.sum_mul]
  rw [Finset.sum_congr rfl hrows]
  rw [Finset.sum_eq_single_of_mem 0 (by simp [ccL])]
  · rw [sum_ccD_k0 d hd]
    unfold ccF
    have hc1 : ¬ (1 ≤ 0 ∧ 0 < d) := by omega
    have hc2 : ¬ (0 = d) := by omega
    rw [if_neg hc1, if_neg hc2, if_pos rfl]
    ring
  · intro k hk hk0
    have hk' : k < ccL d := Finset.mem_range.mp hk
    have hk2 : k ≤ d := by
      simp only [ccL] at hk'
      omega
    rw [sum_ccD_kpos d k hd (by omega) hk2]
    ring

/-- C7: for every max degree `d ≥ 1`, the unsigned Clenshaw-Curtis weights
sum to `2` (the mass of `[-1, 1]`); equivalently the entries of the negated
objective vector sum to `-2`. -/
theorem claim_C7 (d : ℕ) (hd : 1 ≤ d) :
    (∑ n ∈ Finset.range (ccU d), ClenshawCurtisWeights d n) = 2 ∧
    (∑ n ∈ Finset.range (ccU d), objectivesVectorR d n) = -2 := by
  have hsplit : ∑ n ∈ Finset.range (ccU d), ClenshawCurtisWeights d n
      = (∑ n ∈ Finset.range (d + 1), ClenshawCurtisWeights d n)
        + ∑ n ∈ Finset.Ico (d + 1) (2 * d + 1), ClenshawCurtisWeights d n := by
    have h : ccU d = 2 * d + 1 := rfl
    rw [h, Finset.range_eq_Ico,
      ← Finset.sum_Ico_consecutive _ (Nat.zero_le (d + 1)) (by omega)]
  have hlow : ∑ n ∈ Finset.range (d + 1), ClenshawCurtisWeights d n
      = (∑ n ∈ Finset.range d, ccRaw d n) + 2 * ccRaw d d := by
    rw [Finset.sum_range_succ]
    have hmid : ∀ n ∈ Finset.range d, ClenshawCurtisWeights d n = ccRaw d n := by
      intro n hn
      have hn' : n < d := Finset.mem_range.mp hn
      unfold ClenshawCurtisWeights
      rw [if_neg (by omega), if_pos (by omega)]
      ring
    rw [Finset.sum_congr rfl hmid]
    unfold ClenshawCurtisWeights
    rw [if_pos rfl, if_pos (le_refl d)]
  have hhigh : ∑ n ∈ Finset.Ico (d + 1) (2 * d + 1), ClenshawCurtisWeights d n
      = ∑ n ∈ Finset.range d, ccRaw d n := by
    have hmir : ∀ n ∈ Finset.Ico (d + 1) (2 * d + 1),
        ClenshawCurtisWeights d n = ccRaw d (2 * d - n) := by
      intro n hn
      have hn' := Finset.mem_Ico.mp hn
      unfold ClenshawCurtisWeights
      rw [if_neg (by omega), if_neg (by omega)]
      ring
    rw [Finset.sum_congr rfl hmir, Finset.sum_Ico_eq_sum_range]
    have hlen : 2 * d + 1 - (d + 1) = d := by omega
    rw [hlen]
    have hpt : ∀ i ∈ Finset.range d, ccRaw d (2 * d - (d + 1 + i)) = ccRaw d (d - 1 - i) := by
      intro i _
      congr 1
      omega
    rw [Finset.sum_congr rfl hpt, Finset.sum_range_reflect]
  have hraw : ∑ n ∈ Finset.range (d + 1), ccRaw d n = 1 := sum_ccRaw d hd
  have hraw' : (∑ n ∈ Finset.range d, ccRaw d n) + ccRaw d d = 1 := by
    rw [← Finset.sum_range_succ]
    exact hraw
  have hW : ∑ n ∈ Finset.range (ccU d), ClenshawCurtisWeights d n = 2 := by
    rw [hsplit, hlow, hhigh]
    linarith
  refine ⟨hW, ?_⟩
  unfold objectivesVectorR
  rw [Finset.sum_neg_distrib, hW]

/-- Witness for C7 at `d = 1`. -/
theorem claim_C7_witness :
    (∑ n ∈ Finset.range (ccU 1), ClenshawCurtisWeights 1 n) = 2 ∧
    (∑ n ∈ Finset.range (ccU 1), objectivesVectorR 1 n) = -2 :=
  claim_C7 1 (le_refl 1)

/-- C10: the quadrature weight computation divides by `L - 1`,
`1 - 4 m²` (for `0 < m < L - 1`) and `1 - (U-1)²`; with max degree `0` the
divisor `L - 1` is zero, while for every `d ≥ 1` all the divisors are
nonzero. -/
theorem claim_C10 (d : ℕ) :
    divCosine 0 = 0 ∧
    (1 ≤ d →
      divCosine d ≠ 0 ∧
      (∀ m : ℕ, 0 < m → m < ccL d - 1 → divFourierMid m ≠ 0) ∧
      divFourierLast d ≠ 0) := by
  constructor
  · simp [divCosine, ccL]
  · intro hd
    refine ⟨?_, ?_, ?_⟩
    · have h : ccL d - 1 = d := by simp [ccL]
      rw [divCosine, h]
      exact Nat.cast_ne_zero.mpr (by omega)
    · intro m hm _
      unfold divFourierMid
      have h1 : (1 : ℝ) ≤ (m : ℝ) := by exact_mod_cast hm
      nlinarith
    · unfold divFourierLast
      have h : (ccU d - 1 : ℕ) = 2 * d := by simp [ccU]
      rw [h]
      have h1 : (1 : ℝ) ≤ (d : ℝ) := by exact_mod_cast hd
      push_cast
      nlinarith

/-- Witness for C10 at `d = 1`. -/
theorem claim_C10_witness :
    divCosine 0 = 0 ∧ divCosine 1 ≠ 0 :=
  ⟨(claim_C10 1).1, ((claim_C10 1).2 (le_refl 1)).1⟩

/-- Unfolding the block-vector fold one block at a time. -/
lemma buildBlocksVec_succ (U : ℕ) (g : ℕ → ℕ → ℚ) (m : ℕ) :
    buildBlocksVec U g (m + 1)
      = setVecBlock (buildBlocksVec U g m) (m * U) U (g m) := by
  unfold buildBlocksVec
  rw [List.range_succ, List.foldl_append]
  rfl

/-- Entries past the last written block stay zero. -/
lemma buildBlocksVec_out (U : ℕ) (g : ℕ → ℕ → ℚ) (m i : ℕ) (hi : m * U ≤ i) :
    buildBlocksVec U g m i = 0 := by
  induction m with
  | zero => rfl
  | succ m ih =>
    have hsucc : (m + 1) * U = m * U + U := Nat.succ_mul m U
    rw [buildBlocksVec_succ]
    unfold setVecBlock
    rw [if_neg (by omega)]
    exact ih (by omega)

/-- Entry `a` of block `q` of the assembled vector is `g q a`. -/
lemma buildBlocksVec_in (U : ℕ) (g : ℕ → ℕ → ℚ) (m q a : ℕ)
    (ha : a < U) (hq : q < m) :
    buildBlocksVec U g m (q * U + a) = g q a := by
  induction m with
  | zero => omega
  | succ m ih =>
    rw [buildBlocksVec_succ]
    unfold setVecBlock
    rcases Nat.lt_succ_iff_lt_or_eq.mp hq with h | h
    · have h1 : (q + 1) * U = q * U + U := Nat.succ_mul q U
      have h2 : (q + 1) * U ≤ m * U := Nat.mul_le_mul_right U h
      rw [if_neg (by omega)]
      exact ih h
    · subst h
      rw [if_pos (by omega)]
      congr 1
      omega

/-- Unfolding the constraint-matrix fold one row-block at a time. -/
lemma buildA_succ (U m : ℕ) :
    buildA (m + 2) U = rowBlockUpdate U (buildA (m + 1) U) m := by
  unfold buildA
  have h2 : (m + 2) - 1 = (m + 1 - 1) + 1 := rfl
  rw [h2, List.range_succ, List.foldl_append]
  rfl

/-- Rows past the last written row-block stay zero. -/
lemma buildA_out (U m i j : ℕ) (hi : m * U ≤ i) : buildA (m + 1) U i j = 0 := by
  induction m with
  | zero => rfl
  | succ m ih =>
    have hsucc : (m + 1) * U = m * U + U := Nat.succ_mul m U
    rw [buildA_succ]
    simp only [rowBlockUpdate, setMatBlock]
    rw [if_neg (by omega), if_neg (by omega)]
    exact ih (by omega)

/-- Closed form of row `q * U + a` of the constraint matrix: `-I` in
column-block `0`, `+I` in column-block `q + 1`, zero elsewhere. -/
lemma buildA_in (U m q a j : ℕ) (ha : a < U) (hq : q < m) :
    buildA (m + 1) U (q * U + a) j
      = if j < U then -idBlock a j
        else if (q + 1) * U ≤ j ∧ j < (q + 1) * U + U then
          idBlock a (j - (q + 1) * U)
        else 0 := by
  induction m with
  | zero => omega
  | succ m ih =>
    rw [buildA_succ]
    simp only [rowBlockUpdate, setMatBlock]
    rcases Nat.lt_succ_iff_lt_or_eq.mp hq with h | h
    · have h1 : (q + 1) * U = q * U + U := Nat.succ_mul q U
      have h2 : (q + 1) * U ≤ m * U := Nat.mul_le_mul_right U h
      rw [if_neg (by omega), if_neg (by omega)]
      exact ih h
    · subst h
      have h1 : (q + 1) * U = q * U + U := Nat.succ_mul q U
      by_cases hj : j < U
      · have hnc : ¬ (q * U ≤ q * U + a ∧ q * U + a < q * U + U
            ∧ (q + 1) * U ≤ j ∧ j < (q + 1) * U + U) := by omega
        have hc2 : q * U ≤ q * U + a ∧ q * U + a < q * U + U
            ∧ 0 ≤ j ∧ j < 0 + U := by omega
        rw [if_neg hnc, if_pos hc2, if_pos hj]
        have e1 : q * U + a - q * U = a := by omega
        have e2 : j - 0 = j := by omega
        rw [e1, e2]
      · by_cases hcol : (q + 1) * U ≤ j ∧ j < (q + 1) * U + U
        · have hc1 : q * U ≤ q * U + a ∧ q * U + a < q * U + U
              ∧ (q + 1) * U ≤ j ∧ j < (q + 1) * U + U := by omega
          rw [if_pos hc1, if_neg hj, if_pos hcol]
          have e1 : q * U + a - q * U = a := by omega
          rw [e1]
        · have hnc1 : ¬ (q * U ≤ q * U + a ∧ q * U + a < q * U + U
              ∧ (q + 1) * U ≤ j ∧ j < (q + 1) * U + U) := by omega
          have hnc2 : ¬ (q * U ≤ q * U + a ∧ q * U + a < q * U + U
              ∧ 0 ≤ j ∧ j < 0 + U) := by omega
          rw [if_neg hnc1, if_neg hnc2, if_neg hj, if_neg hcol]
          exact buildA_out U q (q * U + a) j (by omega)

/-- C1: for every state with at least two registered polynomials, the primal
triple of `construct_SOS_instance` satisfies: `c` is `-objective` on its
first `U` entries and zero beyond; row-block `q` of `A` holds `-I` in
column-block `0`, `+I` in column-block `q + 1` and zero in every other
column-block; and row-block `q` of `b` is `bound[q+1] - bound[0]`. -/
theorem claim_C1 (s : SOSState) (hN : 2 ≤ s.polynomials_bounds.length) :
    (∀ i, i < ccU s.d → (primal_constraints s).c i = -s.objectives_vector i) ∧
    (∀ i, ccU s.d ≤ i → (primal_constraints s).c i = 0) ∧
    (∀ q a b', q < s.polynomials_bounds.length - 1 → a < ccU s.d →
      b' < ccU s.d →
      (primal_constraints s).A (q * ccU s.d + a) b'
          = (if a = b' then (-1 : ℚ) else 0) ∧
      (primal_constraints s).A (q * ccU s.d + a) ((q + 1) * ccU s.d + b')
          = (if a = b' then (1 : ℚ) else 0) ∧
      ∀ jb, jb < s.polynomials_bounds.length → jb ≠ 0 → jb ≠ q + 1 →
        (primal_constraints s).A (q * ccU s.d + a) (jb * ccU s.d + b') = 0) ∧
    (∀ q a, q < s.polynomials_bounds.length - 1 → a < ccU s.d →
      (primal_constraints s).b (q * ccU s.d + a)
        = (s.polynomials_bounds.getD (q + 1) []).getD a 0
          - (s.polynomials_bounds.getD 0 []).getD a 0) := by
  have hA : (primal_constraints s).A
      = buildA s.polynomials_bounds.length (ccU s.d) := rfl
  have hb : (primal_constraints s).b
      = buildBlocksVec (ccU s.d) (boundsDiff s.polynomials_bounds)
          (s.polynomials_bounds.length - 1) := rfl
  have hc : (primal_constraints s).c
      = setVecBlock (fun _ => 0) 0 (ccU s.d)
          (fun a => -s.objectives_vector a) := rfl
  have hNsucc : s.polynomials_bounds.length
      = (s.polynomials_bounds.length - 1) + 1 := by omega
  refine ⟨?_, ?_, ?_, ?_⟩
  · intro i hi
    rw [hc]
    unfold setVecBlock
    rw [if_pos (by omega)]
    simp
  · intro i hi
    rw [hc]
    unfold setVecBlock
    rw [if_neg (by omega)]
  · intro q a b' hq ha hb'
    rw [hA, hNsucc]
    have h1 : (q + 1) * ccU s.d = q * ccU s.d + ccU s.d :=
      Nat.succ_mul q (ccU s.d)
    refine ⟨?_, ?_, ?_⟩
    · rw [buildA_in _ _ _ _ _ ha hq, if_pos hb']
      by_cases hab : a = b' <;> simp [idBlock, hab]
    · rw [buildA_in _ _ _ _ _ ha hq, if_neg (by omega), if_pos (by omega)]
      have hsub : (q + 1) * ccU s.d + b' - (q + 1) * ccU s.d = b' := by omega
      rw [hsub]
      by_cases hab : a = b' <;> simp [idBlock, hab]
    · intro jb hjb hjb0 hjbq
      rw [buildA_in _ _ _ _ _ ha hq]
      have hjb1 : (1 : ℕ) * ccU s.d ≤ jb * ccU s.d :=
        Nat.mul_le_mul_right (ccU s.d) (by omega)
      rw [one_mul] at hjb1
      by_cases hle : jb ≤ q
      · have h2 : (jb + 1) * ccU s.d = jb * ccU s.d + ccU s.d :=
          Nat.succ_mul jb (ccU s.d)
        have h3 : (jb + 1) * ccU s.d ≤ (q + 1) * ccU s.d :=
          Nat.mul_le_mul_right (ccU s.d) (by omega)
        rw [if_neg (by omega), if_neg (by omega)]
      · have h2 : (q + 2) * ccU s.d = (q + 1) * ccU s.d + ccU s.d :=
          Nat.succ_mul (q + 1) (ccU s.d)
        have h3 : (q + 2) * ccU s.d ≤ jb * ccU s.d :=
          Nat.mul_le_mul_right (ccU s.d) (by omega)
        rw [if_neg (by omega), if_neg (by omega)]
  · intro q a hq ha
    rw [hb, buildBlocksVec_in _ _ _ _ _ ha hq]
    rfl

/-- Witness for C1 on `sampleState` (two registered polynomials, `d = 1`). -/
theorem claim_C1_witness :
    (primal_constraints sampleState).c 0 = -sampleState.objectives_vector 0 ∧
    (primal_constraints sampleState).A (0 * ccU sampleState.d + 0) 0
        = (if 0 = 0 then (-1 : ℚ) else 0) ∧
    (primal_constraints sampleState).b (0 * ccU sampleState.d + 0)
      = (sampleState.polynomials_bounds.getD 1 []).getD 0 0
        - (sampleState.polynomials_bounds.getD 0 []).getD 0 0 := by
  have h := claim_C1 sampleState (by decide)
  exact ⟨h.1 0 (by decide),
    (h.2.2.1 0 0 0 (by decide) (by decide) (by decide)).1,
    h.2.2.2 0 0 (by decide) (by decide)⟩

/-- C2: with `N ≥ 2` registered polynomials the primal triple has `A` of
shape `((N-1)U) × (N U)`, `b` of length `(N-1)U`, `c` of length `N U`, and
the returned barrier is a product of exactly `N` sum barriers, each holding
one SOS barrier of degree `d` plus, exactly when weighting is enabled, a
second SOS barrier weighted by the coefficients `(1, 0, -1)` of `1 - x²`. -/
theorem claim_C2 (s : SOSState) (hN : 2 ≤ s.polynomials_bounds.length) :
    (primal_constraints s).rows
        = (s.polynomials_bounds.length - 1) * ccU s.d ∧
    (primal_constraints s).cols = s.polynomials_bounds.length * ccU s.d ∧
    (primal_constraints s).bLen
        = (s.polynomials_bounds.length - 1) * ccU s.d ∧
    (primal_constraints s).cLen = s.polynomials_bounds.length * ccU s.d ∧
    (∃ inst, construct_SOS_instance s = Except.ok inst ∧
      inst.barrier
        = Barrier.prodB (List.replicate s.polynomials_bounds.length
            (Barrier.sumB (ccU s.d)
              ([Barrier.sosB s.d none] ++
                if s.use_weighted_polynomials then
                  [Barrier.sosB s.d (some [1, 0, -1])]
                else [])))) ∧
    (∀ x : ℚ,
      evalCoeffs 3 (fun k => ([1, 0, -1] : List ℚ).getD k 0) x = 1 - x ^ 2) := by
  have h0 : ¬ s.polynomials_bounds.length = 0 := by omega
  have h1 : ¬ s.polynomials_bounds.length = 1 := by omega
  refine ⟨rfl, rfl, rfl, rfl, ?_, ?_⟩
  · refine ⟨{ constraints := dual_system (primal_constraints s)
              barrier := build_product_barrier s
                  s.polynomials_bounds.length }, ?_, ?_⟩
    · simp [construct_SOS_instance, h0, h1]
    · show build_product_barrier s s.polynomials_bounds.length = _
      unfold build_product_barrier
      congr 1
      rw [List.map_const']
      rw [List.length_range]
      rfl
  · intro x
    simp [evalCoeffs, Finset.sum_range_succ]
    ring

/-- Witness for C2 on `sampleState`. -/
theorem claim_C2_witness :
    (primal_constraints sampleState).rows
        = (sampleState.polynomials_bounds.length - 1) * ccU sampleState.d ∧
    (primal_constraints sampleState).cols
        = sampleState.polynomials_bounds.length * ccU sampleState.d :=
  ⟨(claim_C2 sampleState (by decide)).1, (claim_C2 sampleState (by decide)).2.1⟩

/-- Counterexample to C3: `add_polynomial` performs no dimension check.  On
a state with `U = 3` in interpolant mode, registering the length-2 vector
`[1, 2]` is not rejected: the wrong-length vector is appended to the
registry, which therefore changes. -/
theorem claim_C3_counterexample :
    (add_polynomial emptyRegState [1, 2]).1.polynomials_bounds = [[1, 2]] ∧
    ([1, 2] : List ℚ).length ≠ ccU emptyRegState.d ∧
    (add_polynomial emptyRegState [1, 2]).1.polynomials_bounds
      ≠ emptyRegState.polynomials_bounds := by
  refine ⟨rfl, by decide, by decide⟩

/-- C3 amended: `add_polynomial` appends exactly one vector unconditionally
(the input itself in interpolant mode, the solve result otherwise); no
dimension check is made, so no `DimensionMismatchError` is ever raised and a
wrong-length vector enters the registry unchanged. -/
theorem claim_C3_amended (s : SOSState) (p : List ℚ) :
    (s.input_in_interpolant_basis = true →
      (add_polynomial s p).1.polynomials_bounds
        = s.polynomials_bounds ++ [p]) ∧
    (s.input_in_interpolant_basis = false →
      (add_polynomial s p).1.polynomials_bounds
        = s.polynomials_bounds
          ++ [qrSolve (get_transformation_matrix s) p]) := by
  constructor
  · intro h
    simp [add_polynomial, h]
  · intro h
    simp [add_polynomial, h]

/-- Witness for the amended C3 on `emptyRegState` with the length-2 input. -/
theorem claim_C3_amended_witness :
    (add_polynomial emptyRegState [1, 2]).1.polynomials_bounds
      = emptyRegState.polynomials_bounds ++ [[1, 2]] :=
  (claim_C3_amended emptyRegState [1, 2]).1 rfl

/-- C4: `construct_SOS_instance` fails on an empty registry with the
empty-instance error, fails on a single-entry registry with the
trivial-instance error (both reported, modelling the logged `exit(1)`
paths), and with `N ≥ 2` returns the instance made of the dualized primal
constraints and the product barrier. -/
theorem claim_C4 (s : SOSState) :
    (s.polynomials_bounds.length = 0 →
      construct_SOS_instance s = Except.error InstanceError.emptyInstance) ∧
    (s.polynomials_bounds.length = 1 →
      construct_SOS_instance s = Except.error InstanceError.trivialInstance) ∧
    (2 ≤ s.polynomials_bounds.length →
      construct_SOS_instance s
        = Except.ok
            { constraints := dual_system (primal_constraints s)
              barrier := build_product_barrier s
                  s.polynomials_bounds.length }) := by
  refine ⟨fun h => ?_, fun h => ?_, fun h => ?_⟩
  · simp [construct_SOS_instance, h]
  · simp [construct_SOS_instance, h]
  · have h0 : ¬ s.polynomials_bounds.length = 0 := by omega
    have h1 : ¬ s.polynomials_bounds.length = 1 := by omega
    simp [construct_SOS_instance, h0, h1]

/-- Witness for C4 on registries of size 0, 1 and 2. -/
theorem claim_C4_witness :
    construct_SOS_instance emptyRegState
        = Except.error InstanceError.emptyInstance ∧
    construct_SOS_instance oneRegState
        = Except.error InstanceError.trivialInstance ∧
    construct_SOS_instance sampleState
        = Except.ok
            { constraints := dual_system (primal_constraints sampleState)
              barrier := build_product_barrier sampleState
                  sampleState.polynomials_bounds.length } :=
  ⟨(claim_C4 emptyRegState).1 rfl, (claim_C4 oneRegState).2.1 rfl,
    (claim_C4 sampleState).2.2 (by decide)⟩

/-- Cramer-rule solve: when `det Q ≠ 0`, the vector returned by the QR-solve
model satisfies `Q x = p`. -/
lemma qrSolve_solves {n : ℕ} (Q : Matrix (Fin n) (Fin n) ℚ) (v : Fin n → ℚ)
    (hdet : Q.det ≠ 0) :
    Q.mulVec (fun j => (Q.det)⁻¹ * Q.adjugate.mulVec v j) = v := by
  have h1 : (fun j => (Q.det)⁻¹ * Q.adjugate.mulVec v j)
      = (Q.det)⁻¹ • (Q.adjugate.mulVec v) := rfl
  rw [h1, Matrix.mulVec_smul, Matrix.mulVec_mulVec, Matrix.mul_adjugate,
    Matrix.smul_mulVec_assoc, Matrix.one_mulVec, smul_smul,
    inv_mul_cancel₀ hdet, one_smul]

/-- C5: `add_polynomial` appends exactly one vector: the unchanged input in
interpolant mode (with no diagnostic reported), and otherwise the linear
solve of `Q x = polynomial`, while the explicit inverse of `Q` is used only
for the reported residual `‖Q Q⁻¹ - I‖` and does not affect the appended
value; when `Q` is invertible the appended vector solves the system. -/
theorem claim_C5 (s : SOSState) (p : List ℚ) :
    (s.input_in_interpolant_basis = true →
      (add_polynomial s p).1.polynomials_bounds
          = s.polynomials_bounds ++ [p] ∧
      (add_polynomial s p).2 = none) ∧
    (s.input_in_interpolant_basis = false →
      (add_polynomial s p).1.polynomials_bounds
          = s.polynomials_bounds
            ++ [qrSolve (get_transformation_matrix s) p] ∧
      (add_polynomial s p).2
          = some (sqFrobNorm (get_transformation_matrix s
              * ((get_transformation_matrix s).det⁻¹
                  • (get_transformation_matrix s).adjugate) - 1)) ∧
      ((get_transformation_matrix s).det ≠ 0 →
        ∀ i : Fin s.basis_polynomials.length,
          (get_transformation_matrix s).mulVec
              (fun j => (qrSolve (get_transformation_matrix s) p).getD j 0) i
            = p.getD i 0)) := by
  constructor
  · intro h
    constructor <;> simp [add_polynomial, h]
  · intro h
    refine ⟨by simp [add_polynomial, h], by simp [add_polynomial, h], ?_⟩
    intro hdet i
    have hfun : (fun j : Fin s.basis_polynomials.length =>
          (qrSolve (get_transformation_matrix s) p).getD j 0)
        = fun j : Fin s.basis_polynomials.length =>
            (get_transformation_matrix s).det⁻¹
              * (get_transformation_matrix s).adjugate.mulVec
                  (fun k : Fin s.basis_polynomials.length => p.getD k 0) j := by
      funext j
      unfold qrSolve
      have hlen : (j : ℕ) < (List.ofFn fun i : Fin s.basis_polynomials.length =>
          (get_transformation_matrix s).det⁻¹
            * (get_transformation_matrix s).adjugate.mulVec
                (fun k => p.getD k 0) i).length := by
        rw [List.length_ofFn]
        exact j.isLt
      rw [List.getD_eq_getElem _ _ hlen, List.getElem_ofFn]
    rw [hfun, qrSolve_solves _ _ hdet]

/-- Witness for C5 on `projState` (non-interpolant mode, identity basis). -/
theorem claim_C5_witness :
    (add_polynomial projState [1, 2, 3]).1.polynomials_bounds
        = projState.polynomials_bounds
          ++ [qrSolve (get_transformation_matrix projState) [1, 2, 3]] ∧
    ∀ i : Fin projState.basis_polynomials.length,
      (get_transformation_matrix projState).mulVec
          (fun j => (qrSolve (get_transformation_matrix projState)
              [1, 2, 3]).getD j 0) i
        = ([1, 2, 3] : List ℚ).getD i 0 := by
  have hdet : (get_transformation_matrix projState).det ≠ 0 := by
    have h3 : (get_transformation_matrix projState).det = 1 := by
      show (Matrix.of fun i j : Fin 3 => Qfun projState i j).det = 1
      rw [Matrix.det_fin_three]
      norm_num [Matrix.of_apply, Qfun, projState]
    rw [h3]
    norm_num
  have h := (claim_C5 projState [1, 2, 3]).2 rfl
  exact ⟨h.1, h.2.2 hdet⟩

/-- C9 (code bug): `print_solution` computes `sol_vec = reference - slice`,
and in interpolant mode returns it; but in the non-interpolant branch the
transformed value `Q * sol_vec` goes into a shadowed local and is discarded,
leaving the outer result undefined (`none`) instead of the mapped vector.
Evaluated here on a concrete state with the identity transformation. -/
theorem claim_C9 :
    print_solution projState [1, 1, 1] = none ∧
    print_solution_shadowed projState [1, 1, 1] = [0, 1, 2] ∧
    print_solution projStateI [1, 1, 1]
        = some (solutionSlice projStateI [1, 1, 1]) ∧
    solutionSlice projStateI [1, 1, 1] = [0, 1, 2] := by
  refine ⟨rfl, ?_, ?_, ?_⟩
  · simp [print_solution_shadowed, solutionSlice, Qfun, projState, ccU,
      List.range_succ, Finset.sum_range_succ]
    norm_num
  · simp [print_solution, projStateI, projState]
  · simp [solutionSlice, projStateI, projState, ccU, List.range_succ]
    norm_num

/-- The multiply-by-`(x - a)` step of the basis loop computes the first `U`
coefficients of the polynomial product. -/
lemma basis_step_coeff {F : Type} [Field F] (U : ℕ) (a : F) (Q : Polynomial F) :
    basis_step U a (fun k => if k < U then Q.coeff k else 0)
      = fun k => if k < U then
          (Q * (Polynomial.X - Polynomial.C a)).coeff k
        else 0 := by
  funext k
  simp only [basis_step]
  by_cases hk : k < U
  · rw [if_pos hk, if_pos hk]
    rcases Nat.eq_zero_or_pos k with rfl | hkpos
    · rw [if_pos rfl, if_pos hk, Polynomial.mul_coeff_zero]
      simp only [Polynomial.coeff_sub, Polynomial.coeff_X_zero,
        Polynomial.coeff_C_zero]
      ring
    · obtain ⟨n, rfl⟩ : ∃ n, k = n + 1 := ⟨k - 1, by omega⟩
      rw [if_neg (by omega), if_pos (by omega : n + 1 - 1 < U), if_pos hk,
        Polynomial.coeff_mul_X_sub_C]
      simp only [Nat.add_sub_cancel]
      ring
  · rw [if_neg hk, if_neg hk]

/-- Folding the multiply step over a list of nodes yields the coefficient
window of `Q * Π (X - C a)`. -/
lemma basis_fold_coeff {F : Type} [Field F] (U : ℕ) (t : ℕ → F) (l : List ℕ)
    (Q : Polynomial F) :
    l.foldl (fun p j => basis_step U (t j) p)
        (fun k => if k < U then Q.coeff k else 0)
      = fun k => if k < U then
          (Q * (l.map fun j => Polynomial.X - Polynomial.C (t j)).prod).coeff k
        else 0 := by
  induction l generalizing Q with
  | nil => simp
  | cons a l ih =>
    rw [List.foldl_cons, basis_step_coeff, ih]
    funext k
    simp only [List.map_cons, List.prod_cons, mul_assoc]

/-- Removing one present index from `range U` leaves `U - 1` indices. -/
lemma filter_ne_length (U i : ℕ) (hi : i < U) :
    ((List.range U).filter fun j => j ≠ i).length = U - 1 := by
  induction U with
  | zero => omega
  | succ U ihU =>
    rw [List.range_succ, List.filter_append, List.length_append]
    by_cases hiU : i = U
    · subst hiU
      have h1 : (List.range i).filter (fun j => j ≠ i) = List.range i := by
        apply List.filter_eq_self.mpr
        intro j hj
        have hji := List.mem_range.mp hj
        simp only [ne_eq, decide_not, Bool.not_eq_eq_eq_not, Bool.not_true,
          decide_eq_false_iff_not]
        omega
      rw [h1]
      simp
    · have h2 : i < U := by omega
      rw [ihU h2]
      have h3 : ([U].filter fun j => j ≠ i) = [U] := by
        apply List.filter_eq_self.mpr
        intro j hj
        simp only [List.mem_singleton] at hj
        subst hj
        simp only [ne_eq, decide_not, Bool.not_eq_eq_eq_not, Bool.not_true,
          decide_eq_false_iff_not]
        omega
      rw [h3]
      simp only [List.length_singleton]
      omega

/-- The product of linear factors `X - C a` over a list has degree at most
the list length. -/
lemma linear_prod_natDegree {F : Type} [Field F] (l : List F) :
    ((l.map fun a => Polynomial.X - Polynomial.C a).prod).natDegree
      ≤ l.length := by
  induction l with
  | nil => simp
  | cons a l ih =>
    rw [List.map_cons, List.prod_cons]
    refine le_trans Polynomial.natDegree_mul_le ?_
    rw [Polynomial.natDegree_X_sub_C, List.length_cons]
    omega

/-- Evaluating a coefficient window of a polynomial of degree `< U` is the
same as evaluating the polynomial. -/
lemma evalCoeffs_window {F : Type} [Field F] (U : ℕ) (P : Polynomial F)
    (hdeg : P.natDegree < U) (x : F) :
    evalCoeffs U (fun k => if k < U then P.coeff k else 0) x = P.eval x := by
  unfold evalCoeffs
  rw [Polynomial.eval_eq_sum_range' hdeg]
  apply Finset.sum_congr rfl
  intro k hk
  have hkU := Finset.mem_range.mp hk
  simp [hkU]

/-- C8: for pairwise distinct nodes, the `i`-th coefficient vector produced
by `calculate_basis_polynomials` is, in exact arithmetic, the coefficient
vector of the unique polynomial of degree at most `U - 1` that evaluates to
`1` at node `i` and to `0` at every other node. -/
theorem claim_C8 {F : Type} [Field F] (d : ℕ) (t : ℕ → F)
    (hinj : ∀ a b, a < ccU d → b < ccU d → t a = t b → a = b)
    (i : ℕ) (hi : i < ccU d) :
    (∀ j, j < ccU d →
      evalCoeffs (ccU d) (calculate_basis_polynomial (ccU d) t i) (t j)
        = if j = i then 1 else 0) ∧
    (∀ q : Polynomial F, q.natDegree ≤ ccU d - 1 →
      (∀ j, j < ccU d → q.eval (t j) = if j = i then 1 else 0) →
      ∀ k, q.coeff k = calculate_basis_polynomial (ccU d) t i k) := by
  have hU : 1 ≤ ccU d := by
    unfold ccU
    omega
  set U := ccU d with hUdef
  set js := (List.range U).filter (fun j => j ≠ i) with hjs
  set P : Polynomial F := (js.map fun j => Polynomial.X - Polynomial.C (t j)).prod
    with hP
  have hinit : (basis_init : ℕ → F)
      = fun k => if k < U then (1 : Polynomial F).coeff k else 0 := by
    funext k
    by_cases hk : k < U
    · rw [if_pos hk]
      simp [basis_init, Polynomial.coeff_one, eq_comm]
    · have hk0 : k ≠ 0 := by omega
      simp [basis_init, hk, hk0]
  have hnum : basis_numer U t i = fun k => if k < U then P.coeff k else 0 := by
    unfold basis_numer
    rw [← hjs, hinit, basis_fold_coeff]
    funext k
    rw [one_mul]
  have hlen : js.length = U - 1 := by
    rw [hjs]
    exact filter_ne_length U i hi
  have hPdeg : P.natDegree < U := by
    have h1 : P.natDegree ≤ js.length := by
      have h2 : P = ((js.map t).map fun a =>
          Polynomial.X - Polynomial.C a).prod := by
        rw [hP, List.map_map]
        rfl
      rw [h2]
      refine le_trans (linear_prod_natDegree (js.map t)) ?_
      rw [List.length_map]
    omega
  have hPeval_i : P.eval (t i) = basis_denom U t i := by
    rw [hP, Polynomial.eval_list_prod]
    unfold basis_denom
    rw [← hjs, List.map_map]
    congr 1
    apply List.map_congr_left
    intro j hj
    simp [Function.comp]
  have hmemjs : ∀ j, j < U → j ≠ i → j ∈ js := by
    intro j hj hji
    rw [hjs, List.mem_filter]
    refine ⟨List.mem_range.mpr hj, ?_⟩
    simpa using hji
  have hdenom_ne : basis_denom U t i ≠ 0 := by
    unfold basis_denom
    rw [← hjs]
    apply List.prod_ne_zero
    intro h0
    obtain ⟨j, hjmem, hj0⟩ := List.mem_map.mp h0
    have hji : j ≠ i := by
      have := (List.mem_filter.mp (hjs ▸ hjmem)).2
      simpa using this
    have hjU : j < U := List.mem_range.mp (List.mem_filter.mp (hjs ▸ hjmem)).1
    exact hji (hinj j i hjU hi (sub_eq_zero.mp hj0).symm)
  have hPeval0 : ∀ j, j < U → j ≠ i → P.eval (t j) = 0 := by
    intro j hj hji
    rw [hP, Polynomial.eval_list_prod]
    apply List.prod_eq_zero
    rw [List.map_map, List.mem_map]
    exact ⟨j, hmemjs j hj hji, by simp [Function.comp]⟩
  have heval : ∀ x : F, evalCoeffs U (calculate_basis_polynomial U t i) x
      = P.eval x / basis_denom U t i := by
    intro x
    have hwin := evalCoeffs_window U P hPdeg x
    unfold evalCoeffs at hwin ⊢
    unfold calculate_basis_polynomial
    rw [hnum, ← hwin, Finset.sum_div]
    apply Finset.sum_congr rfl
    intro k hk
    have hkU := Finset.mem_range.mp hk
    simp only [if_pos hkU]
    ring
  constructor
  · intro j hj
    by_cases hji : j = i
    · rw [hji, if_pos rfl, heval, hPeval_i, div_self hdenom_ne]
    · rw [if_neg hji, heval, hPeval0 j hj hji, zero_div]
  · intro q hqdeg hqeval k
    set B : Polynomial F := Polynomial.C (basis_denom U t i)⁻¹ * P with hB
    have hBcoeff : ∀ m, B.coeff m = calculate_basis_polynomial U t i m := by
      intro m
      rw [hB, Polynomial.coeff_C_mul]
      unfold calculate_basis_polynomial
      rw [hnum]
      by_cases hm : m < U
      · simp only [if_pos hm]
        rw [div_eq_inv_mul]
      · simp only [if_neg hm]
        rw [Polynomial.coeff_eq_zero_of_natDegree_lt (by omega : P.natDegree < m)]
        simp
    have hBeval : ∀ j, j < U → B.eval (t j) = if j = i then 1 else 0 := by
      intro j hj
      rw [hB, Polynomial.eval_mul, Polynomial.eval_C]
      by_cases hji : j = i
      · rw [hji, hPeval_i, if_pos rfl, inv_mul_cancel₀ hdenom_ne]
      · rw [hPeval0 j hj hji, if_neg hji, mul_zero]
    have hq_eq_B : q = B := by
      apply Polynomial.eq_of_degrees_lt_of_eval_index_eq (Finset.range U) (v := t)
      · intro a ha b hb hab
        exact hinj a b (by simpa using ha) (by simpa using hb) hab
      · rw [Finset.card_range]
        refine lt_of_le_of_lt Polynomial.degree_le_natDegree ?_
        exact_mod_cast lt_of_le_of_lt hqdeg (by omega)
      · rw [Finset.card_range]
        refine lt_of_le_of_lt Polynomial.degree_le_natDegree ?_
        have hBdeg : B.natDegree ≤ P.natDegree :=
          Polynomial.natDegree_C_mul_le _ _
        exact_mod_cast lt_of_le_of_lt hBdeg hPdeg
      · intro j hjmem
        rw [hqeval j (Finset.mem_range.mp hjmem),
          hBeval j (Finset.mem_range.mp hjmem)]
    rw [hq_eq_B, hBcoeff]

/-- Witness for C8 over `ℚ` with `d = 1` and nodes `0, 1, 2`. -/
theorem claim_C8_witness :
    evalCoeffs (ccU 1) (calculate_basis_polynomial (ccU 1) sampleNodes 0)
        (sampleNodes 1)
      = if 1 = 0 then 1 else 0 :=
  (claim_C8 1 sampleNodes
    (fun a b _ _ hab => Nat.cast_injective hab) 0 (by decide)).1 1 (by decide)

end EnvelopeSOS
